import Mathlib

/-!
Verification of the forward Euler integrator of `1_1_forward_euler.ipynb`.

The notebook computes, for an initial value `N_0`, growth rate `r`, step
size `delta_t` and total time `T_total`:
  * `num_steps = int(T_total / delta_t) + 1`               (cell 10)
  * an array `N_t` with `N_t[0] = N_0` and, for `t` from 1 to
    `num_steps - 1`, `N_t[t] = N_t[t-1] + r * delta_t * N_t[t-1]`
    (cells 11-12)
  * `times = np.arange(num_steps) * delta_t`               (cell 14)
  * the analytical curve `solution = N_0 * np.exp(r*times)` (cell 15).

The arithmetic is embedded over an arbitrary linear ordered field (with a
floor, for the step count); the real numbers instantiate it, and the
convergence statements are proved over `ℝ`.  `Python`'s `int()` truncates
toward zero, which for the validated domain `T ≥ 0`, `dt > 0` agrees with
the floor used here.
-/

/-- The error taxonomy of the spec: the single error `InvalidArgument`. -/
inductive IntegrateError where
  | InvalidArgument
deriving DecidableEq, Repr

/-- The Euler iterate of cells 11-12 of the notebook: `N_t 0 = N_0` and
`N_t (t) = N_t (t-1) + r * delta_t * N_t (t-1)` (`dN = r * delta_t * N_t[t-1];
N_t[t] = N_t[t-1] + dN`). -/
def N_t {α : Type} [LinearOrderedField α] (N_0 r delta_t : α) : ℕ → α
  | 0 => N_0
  | t + 1 => N_t N_0 r delta_t t + r * delta_t * N_t N_0 r delta_t t

/-- Cell 10 of the notebook: `num_steps = int(T_total / delta_t) + 1`. -/
def num_steps {α : Type} [LinearOrderedField α] [FloorRing α] (T delta_t : α) : ℕ :=
  (⌊T / delta_t⌋).toNat + 1

/-- Cell 14 of the notebook: `times = np.arange(num_steps) * delta_t`, i.e.
the `i`-th time coordinate is `i * delta_t`. -/
def times {α : Type} [LinearOrderedField α] (delta_t : α) (i : ℕ) : α :=
  (i : α) * delta_t

/-- The trajectory of the notebook: the `times` array paired with the `N_t`
array, one sample per step index `0 .. num_steps - 1`. -/
def trajectory {α : Type} [LinearOrderedField α] [FloorRing α] (N_0 r delta_t T : α) :
    List (α × α) :=
  (List.range (num_steps T delta_t)).map (fun i => (times delta_t i, N_t N_0 r delta_t i))

/-- Modelled from the spec: the notebook is a linear script with no input
validation, while the spec's contract `integrate(N0, r, dt, T) -> Trajectory`
fails with `InvalidArgument` when `dt` is zero or negative or `T` is
negative.  On valid inputs the result is the notebook's trajectory. -/
def integrate {α : Type} [LinearOrderedField α] [FloorRing α] (N_0 r delta_t T : α) :
    Except IntegrateError (List (α × α)) :=
  if 0 < delta_t ∧ 0 ≤ T then Except.ok (trajectory N_0 r delta_t T)
  else Except.error IntegrateError.InvalidArgument

section BasicLemmas

variable {α : Type} [LinearOrderedField α] [FloorRing α]

theorem num_steps_pos (T delta_t : α) : 0 < num_steps T delta_t := by
  simp [num_steps]

theorem trajectory_length (N_0 r delta_t T : α) :
    (trajectory N_0 r delta_t T).length = num_steps T delta_t := by
  simp [trajectory]

theorem trajectory_get (N_0 r delta_t T : α) (i : ℕ)
    (h : i < (trajectory N_0 r delta_t T).length) :
    (trajectory N_0 r delta_t T).get ⟨i, h⟩ = (times delta_t i, N_t N_0 r delta_t i) := by
  simp [trajectory, List.get_eq_getElem]

theorem integrate_ok (N_0 r delta_t T : α) (hdt : 0 < delta_t) (hT : 0 ≤ T) :
    integrate N_0 r delta_t T = Except.ok (trajectory N_0 r delta_t T) := by
  simp [integrate, hdt, hT]

theorem N_t_closed_form {β : Type} [LinearOrderedField β] (N_0 r delta_t : β) (i : ℕ) :
    N_t N_0 r delta_t i = N_0 * (1 + r * delta_t) ^ i := by
  induction i with
  | zero => simp [N_t]
  | succ t ih => rw [N_t, ih, pow_succ]; ring

end BasicLemmas

/-- C1: for every valid input (`dt > 0`, `T ≥ 0`) and every step index `i`
from 1 to `steps - 1`, the trajectory value satisfies
`value[i] = value[i-1] + r * dt * value[i-1]`, equivalently
`value[i] = value[i-1] * (1 + r*dt)`. -/
theorem euler_recurrence {α : Type} [LinearOrderedField α] [FloorRing α]
    (N_0 r delta_t T : α) (hdt : 0 < delta_t) (hT : 0 ≤ T) (i : ℕ) (h1 : 1 ≤ i)
    (h2 : i < (trajectory N_0 r delta_t T).length) :
    ((trajectory N_0 r delta_t T).get ⟨i, h2⟩).2 =
        ((trajectory N_0 r delta_t T).get ⟨i - 1, by omega⟩).2 +
          r * delta_t * ((trajectory N_0 r delta_t T).get ⟨i - 1, by omega⟩).2 ∧
      ((trajectory N_0 r delta_t T).get ⟨i, h2⟩).2 =
        ((trajectory N_0 r delta_t T).get ⟨i - 1, by omega⟩).2 * (1 + r * delta_t) := by
  obtain ⟨j, rfl⟩ : ∃ j, i = j + 1 := ⟨i - 1, by omega⟩
  rw [trajectory_get, trajectory_get]
  simp only [Nat.add_sub_cancel]
  refine ⟨rfl, ?_⟩
  rw [N_t]
  ring

/-- Witness for C1 at `N_0 = 1`, `r = 1`, `dt = 1`, `T = 1`, `i = 1`. -/
theorem euler_recurrence_witness :
    ((trajectory (1:ℝ) 1 1 1).get ⟨1, by simp [trajectory, num_steps]⟩).2 =
        ((trajectory (1:ℝ) 1 1 1).get ⟨0, by simp [trajectory, num_steps]⟩).2 +
          1 * 1 * ((trajectory (1:ℝ) 1 1 1).get ⟨0, by simp [trajectory, num_steps]⟩).2 ∧
      ((trajectory (1:ℝ) 1 1 1).get ⟨1, by simp [trajectory, num_steps]⟩).2 =
        ((trajectory (1:ℝ) 1 1 1).get ⟨0, by simp [trajectory, num_steps]⟩).2 * (1 + 1 * 1) :=
  euler_recurrence (1:ℝ) 1 1 1 (by norm_num) (by norm_num) 1 (by norm_num)
    (by simp [trajectory, num_steps])

/-- C2: for every `dt > 0` and `T ≥ 0` the trajectory returned by
`integrate` contains exactly `⌊T/dt⌋ + 1` sample points. -/
theorem trajectory_point_count {α : Type} [LinearOrderedField α] [FloorRing α]
    (N_0 r delta_t T : α) (hdt : 0 < delta_t) (hT : 0 ≤ T) :
    ∃ tr, integrate N_0 r delta_t T = Except.ok tr ∧
      (tr.length : ℤ) = ⌊T / delta_t⌋ + 1 := by
  refine ⟨_, integrate_ok _ _ _ _ hdt hT, ?_⟩
  rw [trajectory_length]
  unfold num_steps
  have h0 : 0 ≤ ⌊T / delta_t⌋ := Int.floor_nonneg.mpr (div_nonneg hT hdt.le)
  push_cast [Int.toNat_of_nonneg h0]
  ring

/-- Witness for C2: `integrate(N0 = 1, r = ln 2 / 0.5, dt = 0.01, T = 5)`
produces exactly 501 points. -/
theorem trajectory_point_count_witness :
    ∃ tr, integrate (1:ℝ) (Real.log 2 / (1/2)) (1/100) 5 = Except.ok tr ∧
      tr.length = 501 := by
  obtain ⟨tr, h1, h2⟩ :=
    trajectory_point_count (1:ℝ) (Real.log 2 / (1/2)) (1/100) 5 (by norm_num) (by norm_num)
  refine ⟨tr, h1, ?_⟩
  have h3 : ⌊(5:ℝ) / (1/100)⌋ = 500 := by norm_num
  rw [h3] at h2
  exact_mod_cast h2

/-- C3: `integrate` fails with `InvalidArgument` exactly when `dt ≤ 0` or
`T < 0`, and no other failure mode exists. -/
theorem integrate_invalid_iff {α : Type} [LinearOrderedField α] [FloorRing α]
    (N_0 r delta_t T : α) :
    (integrate N_0 r delta_t T = Except.error IntegrateError.InvalidArgument ↔
        delta_t ≤ 0 ∨ T < 0) ∧
      ∀ e, integrate N_0 r delta_t T = Except.error e →
        e = IntegrateError.InvalidArgument := by
  unfold integrate
  by_cases h : 0 < delta_t ∧ 0 ≤ T
  · rw [if_pos h]
    refine ⟨⟨fun hc => by simp at hc, fun hc => ?_⟩, fun e hc => by simp at hc⟩
    rcases hc with hc | hc
    · exact absurd h.1 (not_lt.mpr hc)
    · exact absurd h.2 (not_le.mpr hc)
  · rw [if_neg h]
    push_neg at h
    refine ⟨⟨fun _ => ?_, fun _ => rfl⟩, fun e hc => ?_⟩
    · by_cases hdt : 0 < delta_t
      · exact Or.inr (h hdt)
      · exact Or.inl (not_lt.mp hdt)
    · cases e
      rfl

/-- Witness for C3: `integrate(1, 1, 0, 1)` and `integrate(1, 1, 0.1, -1)`
both fail with `InvalidArgument`. -/
theorem integrate_invalid_witness :
    integrate (1:ℝ) 1 0 1 = Except.error IntegrateError.InvalidArgument ∧
      integrate (1:ℝ) 1 (1/10) (-1) = Except.error IntegrateError.InvalidArgument :=
  ⟨(integrate_invalid_iff (1:ℝ) 1 0 1).1.mpr (Or.inl (by norm_num)),
   (integrate_invalid_iff (1:ℝ) 1 (1/10) (-1)).1.mpr (Or.inr (by norm_num))⟩

/-- C4: for every valid input the first sample of the returned trajectory is
`(0, N_0)`. -/
theorem trajectory_first_sample {α : Type} [LinearOrderedField α] [FloorRing α]
    (N_0 r delta_t T : α) (hdt : 0 < delta_t) (hT : 0 ≤ T) :
    ∃ tr, integrate N_0 r delta_t T = Except.ok tr ∧
      tr.head? = some ((0:α), N_0) := by
  refine ⟨_, integrate_ok _ _ _ _ hdt hT, ?_⟩
  rw [trajectory]
  unfold num_steps
  rw [List.range_succ_eq_map, List.map_cons, List.head?_cons]
  simp [times, N_t]

/-- Witness for C4 at `N_0 = 7`, `r = 2`, `dt = 1/2`, `T = 3`. -/
theorem trajectory_first_sample_witness :
    ∃ tr, integrate (7:ℝ) 2 (1/2) 3 = Except.ok tr ∧
      tr.head? = some ((0:ℝ), (7:ℝ)) :=
  trajectory_first_sample (7:ℝ) 2 (1/2) 3 (by norm_num) (by norm_num)

/-- C5: for every valid input the time coordinate of sample `i` is `i * dt`;
consecutive samples are spaced exactly `dt` apart and the time coordinates
are strictly increasing. -/
theorem trajectory_times {α : Type} [LinearOrderedField α] [FloorRing α]
    (N_0 r delta_t T : α) (hdt : 0 < delta_t) (hT : 0 ≤ T) :
    (∀ i (h : i < (trajectory N_0 r delta_t T).length),
        ((trajectory N_0 r delta_t T).get ⟨i, h⟩).1 = (i : α) * delta_t) ∧
      (∀ i (h : i + 1 < (trajectory N_0 r delta_t T).length),
        ((trajectory N_0 r delta_t T).get ⟨i + 1, h⟩).1 -
          ((trajectory N_0 r delta_t T).get ⟨i, by omega⟩).1 = delta_t) ∧
      ∀ i j (hi : i < (trajectory N_0 r delta_t T).length)
        (hj : j < (trajectory N_0 r delta_t T).length), i < j →
        ((trajectory N_0 r delta_t T).get ⟨i, hi⟩).1 <
          ((trajectory N_0 r delta_t T).get ⟨j, hj⟩).1 := by
  refine ⟨fun i h => by rw [trajectory_get]; rfl, fun i h => ?_, fun i j hi hj hij => ?_⟩
  · rw [trajectory_get, trajectory_get]
    show (↑(i + 1) : α) * delta_t - (i : α) * delta_t = delta_t
    push_cast
    ring
  · rw [trajectory_get, trajectory_get]
    show (i : α) * delta_t < (j : α) * delta_t
    exact mul_lt_mul_of_pos_right (by exact_mod_cast hij) hdt

/-- Witness for C5 at `N_0 = 1`, `r = 1`, `dt = 1/4`, `T = 1`. -/
theorem trajectory_times_witness :
    (∀ i (h : i < (trajectory (1:ℝ) 1 (1/4) 1).length),
        ((trajectory (1:ℝ) 1 (1/4) 1).get ⟨i, h⟩).1 = (i : ℝ) * (1/4)) ∧
      (∀ i (h : i + 1 < (trajectory (1:ℝ) 1 (1/4) 1).length),
        ((trajectory (1:ℝ) 1 (1/4) 1).get ⟨i + 1, h⟩).1 -
          ((trajectory (1:ℝ) 1 (1/4) 1).get ⟨i, by omega⟩).1 = 1/4) ∧
      ∀ i j (hi : i < (trajectory (1:ℝ) 1 (1/4) 1).length)
        (hj : j < (trajectory (1:ℝ) 1 (1/4) 1).length), i < j →
        ((trajectory (1:ℝ) 1 (1/4) 1).get ⟨i, hi⟩).1 <
          ((trajectory (1:ℝ) 1 (1/4) 1).get ⟨j, hj⟩).1 :=
  trajectory_times (1:ℝ) 1 (1/4) 1 (by norm_num) (by norm_num)

/-- C6 counterexample: with `N_0 = 1 > 0`, `r = -30 < 0`, `dt = 1/10 > 0`,
`T = 1/5 ≥ 0` (a valid input) the value sequence is `1, -2, 4`: it is not
strictly decreasing, since `value[1] = -2 < 4 = value[2]`. -/
theorem trajectory_not_strictly_decreasing :
    (0:ℝ) < 1 ∧ (-30:ℝ) < 0 ∧ (0:ℝ) < 1/10 ∧ (0:ℝ) ≤ 1/5 ∧
      ∃ h1 : 1 < (trajectory (1:ℝ) (-30) (1/10) (1/5)).length,
      ∃ h2 : 2 < (trajectory (1:ℝ) (-30) (1/10) (1/5)).length,
        ((trajectory (1:ℝ) (-30) (1/10) (1/5)).get ⟨1, h1⟩).2 <
          ((trajectory (1:ℝ) (-30) (1/10) (1/5)).get ⟨2, h2⟩).2 := by
  have hl : (trajectory (1:ℝ) (-30) (1/10) (1/5)).length = 3 := by
    rw [trajectory_length]
    norm_num [num_steps]
    rfl
  refine ⟨by norm_num, by norm_num, by norm_num, by norm_num, by omega, by omega, ?_⟩
  rw [trajectory_get, trajectory_get]
  norm_num [N_t]

/-- C6 (amended): for every valid input with `N_0 > 0`: if `r > 0` the
values are strictly increasing; if `r < 0` *and additionally `1 + r*dt > 0`
(no overshoot past the fixed point)* they are strictly decreasing; if
`r = 0` every value equals `N_0`. -/
theorem trajectory_monotonicity {α : Type} [LinearOrderedField α] [FloorRing α]
    (N_0 r delta_t T : α) (hdt : 0 < delta_t) (hT : 0 ≤ T) (hN : 0 < N_0) :
    (0 < r → ∀ i j (hi : i < (trajectory N_0 r delta_t T).length)
        (hj : j < (trajectory N_0 r delta_t T).length), i < j →
        ((trajectory N_0 r delta_t T).get ⟨i, hi⟩).2 <
          ((trajectory N_0 r delta_t T).get ⟨j, hj⟩).2) ∧
      (r < 0 → 0 < 1 + r * delta_t →
        ∀ i j (hi : i < (trajectory N_0 r delta_t T).length)
          (hj : j < (trajectory N_0 r delta_t T).length), i < j →
          ((trajectory N_0 r delta_t T).get ⟨j, hj⟩).2 <
            ((trajectory N_0 r delta_t T).get ⟨i, hi⟩).2) ∧
      (r = 0 → ∀ i (hi : i < (trajectory N_0 r delta_t T).length),
        ((trajectory N_0 r delta_t T).get ⟨i, hi⟩).2 = N_0) := by
  refine ⟨fun hr i j hi hj hij => ?_, fun hr hc i j hi hj hij => ?_,
    fun hr i hi => ?_⟩
  · rw [trajectory_get, trajectory_get]
    show N_t N_0 r delta_t i < N_t N_0 r delta_t j
    rw [N_t_closed_form, N_t_closed_form]
    have hb : 1 < 1 + r * delta_t := by nlinarith
    exact mul_lt_mul_of_pos_left (pow_lt_pow_right₀ hb hij) hN
  · rw [trajectory_get, trajectory_get]
    show N_t N_0 r delta_t j < N_t N_0 r delta_t i
    rw [N_t_closed_form, N_t_closed_form]
    have hb : 1 + r * delta_t < 1 := by nlinarith
    exact mul_lt_mul_of_pos_left (pow_lt_pow_right_of_lt_one₀ hc hb hij) hN
  · rw [trajectory_get]
    show N_t N_0 r delta_t i = N_0
    rw [N_t_closed_form, hr]
    ring

/-- Witness for the amended C6 at `N_0 = 1`, `r = 1`, `dt = 1/2`, `T = 1`. -/
theorem trajectory_monotonicity_witness :
    (0 < (1:ℝ) → ∀ i j (hi : i < (trajectory (1:ℝ) 1 (1/2) 1).length)
        (hj : j < (trajectory (1:ℝ) 1 (1/2) 1).length), i < j →
        ((trajectory (1:ℝ) 1 (1/2) 1).get ⟨i, hi⟩).2 <
          ((trajectory (1:ℝ) 1 (1/2) 1).get ⟨j, hj⟩).2) ∧
      ((1:ℝ) < 0 → 0 < 1 + (1:ℝ) * (1/2) →
        ∀ i j (hi : i < (trajectory (1:ℝ) 1 (1/2) 1).length)
          (hj : j < (trajectory (1:ℝ) 1 (1/2) 1).length), i < j →
          ((trajectory (1:ℝ) 1 (1/2) 1).get ⟨j, hj⟩).2 <
            ((trajectory (1:ℝ) 1 (1/2) 1).get ⟨i, hi⟩).2) ∧
      ((1:ℝ) = 0 → ∀ i (hi : i < (trajectory (1:ℝ) 1 (1/2) 1).length),
        ((trajectory (1:ℝ) 1 (1/2) 1).get ⟨i, hi⟩).2 = 1) :=
  trajectory_monotonicity (1:ℝ) 1 (1/2) 1 (by norm_num) (by norm_num) (by norm_num)

/-- C7: `integrate(N0 = 10, r = 0, dt = 0.1, T = 0)` returns the
single-sample trajectory `[(0, 10)]`. -/
theorem integrate_single_point :
    integrate (10:ℝ) 0 (1/10) 0 = Except.ok [((0:ℝ), (10:ℝ))] := by
  rw [integrate_ok _ _ _ _ (by norm_num) le_rfl]
  have h : num_steps (0:ℝ) (1/10) = 1 := by norm_num [num_steps]
  rw [trajectory, h]
  simp [List.range_succ, times, N_t]

/-- C8: for every valid input the value at index `i` is the closed form
`N_0 * (1 + r*dt)^i`; in particular when `N_0 = 0` every value is `0`. -/
theorem trajectory_closed_form {α : Type} [LinearOrderedField α] [FloorRing α]
    (N_0 r delta_t T : α) (hdt : 0 < delta_t) (hT : 0 ≤ T) :
    (∀ i (h : i < (trajectory N_0 r delta_t T).length),
        ((trajectory N_0 r delta_t T).get ⟨i, h⟩).2 = N_0 * (1 + r * delta_t) ^ i) ∧
      (N_0 = 0 → ∀ i (h : i < (trajectory N_0 r delta_t T).length),
        ((trajectory N_0 r delta_t T).get ⟨i, h⟩).2 = 0) := by
  constructor
  · intro i h
    rw [trajectory_get]
    exact N_t_closed_form N_0 r delta_t i
  · intro h0 i h
    rw [trajectory_get]
    show N_t N_0 r delta_t i = 0
    rw [N_t_closed_form, h0]
    ring

/-- Witness for C8 at `N_0 = 3`, `r = 2`, `dt = 1/2`, `T = 1`. -/
theorem trajectory_closed_form_witness :
    (∀ i (h : i < (trajectory (3:ℝ) 2 (1/2) 1).length),
        ((trajectory (3:ℝ) 2 (1/2) 1).get ⟨i, h⟩).2 = 3 * (1 + 2 * (1/2)) ^ i) ∧
      ((3:ℝ) = 0 → ∀ i (h : i < (trajectory (3:ℝ) 2 (1/2) 1).length),
        ((trajectory (3:ℝ) 2 (1/2) 1).get ⟨i, h⟩).2 = 0) :=
  trajectory_closed_form (3:ℝ) 2 (1/2) 1 (by norm_num) (by norm_num)

/-- C9: `integrate` is deterministic — two calls with identical inputs
return equal trajectories.  (In this embedding `integrate` is a pure
function, so freedom from side effects holds by construction.) -/
theorem integrate_deterministic {α : Type} [LinearOrderedField α] [FloorRing α]
    (N_0 r delta_t T N_0' r' delta_t' T' : α)
    (h1 : N_0 = N_0') (h2 : r = r') (h3 : delta_t = delta_t') (h4 : T = T') :
    integrate N_0 r delta_t T = integrate N_0' r' delta_t' T' := by
  subst h1 h2 h3 h4
  rfl

/-- Witness for C9 at `N_0 = 1`, `r = 2`, `dt = 1/2`, `T = 1`. -/
theorem integrate_deterministic_witness :
    integrate (1:ℝ) 2 (1/2) 1 = integrate (1:ℝ) 2 (1/2) 1 :=
  integrate_deterministic (1:ℝ) 2 (1/2) 1 1 2 (1/2) 1 rfl rfl rfl rfl

section Convergence

/-- Difference of `n`-th powers against a common bound `K ≥ 1` on the bases. -/
theorem abs_pow_sub_pow_le (A B K : ℝ) (hA : |A| ≤ K) (hB : |B| ≤ K) (hK : 1 ≤ K)
    (n : ℕ) : |A ^ n - B ^ n| ≤ (n : ℝ) * K ^ n * |A - B| := by
  induction n with
  | zero => simp
  | succ m ih =>
    have hK0 : (0:ℝ) ≤ K := le_trans zero_le_one hK
    calc |A ^ (m + 1) - B ^ (m + 1)|
        = |A * (A ^ m - B ^ m) + (A - B) * B ^ m| := by
          rw [show A ^ (m + 1) - B ^ (m + 1)
              = A * (A ^ m - B ^ m) + (A - B) * B ^ m from by ring]
      _ ≤ |A * (A ^ m - B ^ m)| + |(A - B) * B ^ m| := abs_add _ _
      _ = |A| * |A ^ m - B ^ m| + |A - B| * |B| ^ m := by
          rw [abs_mul, abs_mul, abs_pow]
      _ ≤ K * ((m : ℝ) * K ^ m * |A - B|) + |A - B| * K ^ m := by
          have hBK : |B| ^ m ≤ K ^ m := pow_le_pow_left₀ (abs_nonneg _) hB m
          have h1 : |A| * |A ^ m - B ^ m| ≤ K * ((m : ℝ) * K ^ m * |A - B|) := by
            apply mul_le_mul hA ih (abs_nonneg _) hK0
          have h2 : |A - B| * |B| ^ m ≤ |A - B| * K ^ m :=
            mul_le_mul_of_nonneg_left hBK (abs_nonneg _)
          linarith
      _ = ((m : ℝ) * (K ^ m * K) + K ^ m) * |A - B| := by ring
      _ ≤ ((m : ℝ) * K ^ (m + 1) + K ^ (m + 1)) * |A - B| := by
          rw [← pow_succ]
          have hKK : K ^ m ≤ K ^ (m + 1) := pow_le_pow_right₀ hK (Nat.le_succ m)
          have hAB0 : (0:ℝ) ≤ |A - B| := abs_nonneg _
          have hm0 : (0:ℝ) ≤ (m : ℝ) := Nat.cast_nonneg m
          nlinarith
      _ = ((m : ℝ) + 1) * K ^ (m + 1) * |A - B| := by ring
      _ = (↑(m + 1) : ℝ) * K ^ (m + 1) * |A - B| := by push_cast; ring

/-- Any step index of the trajectory stays inside the horizon: `i * dt ≤ T`. -/
theorem step_time_le (T delta_t : ℝ) (hdt : 0 < delta_t) (hT : 0 ≤ T) (i : ℕ)
    (hi : i < num_steps T delta_t) : (i : ℝ) * delta_t ≤ T := by
  have hfl : 0 ≤ ⌊T / delta_t⌋ := Int.floor_nonneg.mpr (div_nonneg hT hdt.le)
  have h1 : i ≤ (⌊T / delta_t⌋).toNat := by
    unfold num_steps at hi
    omega
  have h2 : ((i : ℤ) : ℝ) ≤ ((⌊T / delta_t⌋ : ℤ) : ℝ) := by
    exact_mod_cast le_trans (Int.ofNat_le.mpr h1) (le_of_eq (Int.toNat_of_nonneg hfl))
  have h3 : (i : ℝ) ≤ T / delta_t := by
    push_cast at h2
    exact le_trans h2 (Int.floor_le _)
  calc (i : ℝ) * delta_t ≤ (T / delta_t) * delta_t :=
        mul_le_mul_of_nonneg_right h3 hdt.le
    _ = T := div_mul_cancel₀ T (ne_of_gt hdt)

/-- Pointwise global error bound for the Euler iterate: on the horizon
`[0, T]`, with `|r| * dt ≤ 1`, the distance to the analytical solution is at
most `|N_0| * r² * exp(|r|T) * T * dt` — linear in the step size. -/
theorem euler_error_bound (N_0 r delta_t T : ℝ) (hdt : 0 < delta_t) (hT : 0 ≤ T)
    (hr : |r| * delta_t ≤ 1) (i : ℕ) (hi : i < num_steps T delta_t) :
    |N_t N_0 r delta_t i - N_0 * Real.exp (r * ((i : ℝ) * delta_t))| ≤
      |N_0| * r ^ 2 * Real.exp (|r| * T) * T * delta_t := by
  have hiT : (i : ℝ) * delta_t ≤ T := step_time_le T delta_t hdt hT i hi
  have hxabs : |r * delta_t| = |r| * delta_t := by
    rw [abs_mul, abs_of_pos hdt]
  have hA : |Real.exp (r * delta_t)| ≤ Real.exp (|r| * delta_t) := by
    rw [abs_of_pos (Real.exp_pos _)]
    exact Real.exp_le_exp.mpr (mul_le_mul_of_nonneg_right (le_abs_self r) hdt.le)
  have hB : |1 + r * delta_t| ≤ Real.exp (|r| * delta_t) := by
    calc |1 + r * delta_t| ≤ |(1:ℝ)| + |r * delta_t| := abs_add _ _
      _ = |r * delta_t| + 1 := by rw [abs_one]; ring
      _ ≤ Real.exp |r * delta_t| := Real.add_one_le_exp _
      _ = Real.exp (|r| * delta_t) := by rw [hxabs]
  have hK : 1 ≤ Real.exp (|r| * delta_t) :=
    Real.one_le_exp (by positivity)
  have hAB : |Real.exp (r * delta_t) - (1 + r * delta_t)| ≤ (r * delta_t) ^ 2 := by
    have h1 : |r * delta_t| ≤ 1 := by rw [hxabs]; exact hr
    calc |Real.exp (r * delta_t) - (1 + r * delta_t)|
        = |Real.exp (r * delta_t) - 1 - r * delta_t| := by ring_nf
      _ ≤ (r * delta_t) ^ 2 := Real.abs_exp_sub_one_sub_id_le h1
  have hKpow : Real.exp (|r| * delta_t) ^ i ≤ Real.exp (|r| * T) := by
    rw [← Real.exp_nat_mul]
    apply Real.exp_le_exp.mpr
    calc (i : ℝ) * (|r| * delta_t) = |r| * ((i : ℝ) * delta_t) := by ring
      _ ≤ |r| * T := mul_le_mul_of_nonneg_left hiT (abs_nonneg r)
  have hclosed : N_t N_0 r delta_t i = N_0 * (1 + r * delta_t) ^ i :=
    N_t_closed_form N_0 r delta_t i
  have hexp : Real.exp (r * ((i : ℝ) * delta_t)) = Real.exp (r * delta_t) ^ i := by
    rw [← Real.exp_nat_mul]
    ring_nf
  have hKpos : (0:ℝ) < Real.exp (|r| * delta_t) := Real.exp_pos _
  have hmain : |(1 + r * delta_t) ^ i - Real.exp (r * delta_t) ^ i| ≤
      (i : ℝ) * Real.exp (|r| * delta_t) ^ i * |1 + r * delta_t - Real.exp (r * delta_t)| :=
    abs_pow_sub_pow_le _ _ _ hB hA hK i
  calc |N_t N_0 r delta_t i - N_0 * Real.exp (r * ((i : ℝ) * delta_t))|
      = |N_0| * |(1 + r * delta_t) ^ i - Real.exp (r * delta_t) ^ i| := by
        rw [hclosed, hexp, ← abs_mul]
        ring_nf
    _ ≤ |N_0| * ((i : ℝ) * Real.exp (|r| * delta_t) ^ i *
          |1 + r * delta_t - Real.exp (r * delta_t)|) := by
        gcongr
    _ = |N_0| * ((i : ℝ) * Real.exp (|r| * delta_t) ^ i *
          |Real.exp (r * delta_t) - (1 + r * delta_t)|) := by
        rw [abs_sub_comm]
    _ ≤ |N_0| * ((i : ℝ) * Real.exp (|r| * T) * (r * delta_t) ^ 2) := by
        gcongr
    _ = |N_0| * r ^ 2 * Real.exp (|r| * T) * ((i : ℝ) * delta_t) * delta_t := by
        ring
    _ ≤ |N_0| * r ^ 2 * Real.exp (|r| * T) * T * delta_t := by
        gcongr

end Convergence

/-- C10: for fixed `N_0`, `r`, `T ≥ 0`, the maximum over the trajectory of
the absolute difference between the Euler value and the analytical value
`N_0 * exp(r*i*dt)` tends to 0 as `dt → 0⁺`, and the convergence is first
order: for `dt` small enough (`|r|*dt ≤ 1`) the global error is bounded by
a constant times `dt`. -/
theorem euler_convergence (N_0 r T : ℝ) (hT : 0 ≤ T) :
    Filter.Tendsto
        (fun delta_t =>
          (Finset.range (num_steps T delta_t)).sup'
            (by simp [Finset.nonempty_range_iff, num_steps])
            (fun i => |N_t N_0 r delta_t i - N_0 * Real.exp (r * ((i : ℝ) * delta_t))|))
        (nhdsWithin 0 (Set.Ioi (0:ℝ))) (nhds 0) ∧
      ∀ delta_t, 0 < delta_t → |r| * delta_t ≤ 1 →
        ∀ i, i < num_steps T delta_t →
          |N_t N_0 r delta_t i - N_0 * Real.exp (r * ((i : ℝ) * delta_t))| ≤
            |N_0| * r ^ 2 * Real.exp (|r| * T) * T * delta_t := by
  constructor
  · have hup : Filter.Tendsto
        (fun t : ℝ => |N_0| * r ^ 2 * Real.exp (|r| * T) * T * t)
        (nhdsWithin 0 (Set.Ioi (0:ℝ))) (nhds 0) := by
      have h1 : Filter.Tendsto
          (fun t : ℝ => |N_0| * r ^ 2 * Real.exp (|r| * T) * T * t)
          (nhds 0) (nhds (|N_0| * r ^ 2 * Real.exp (|r| * T) * T * 0)) :=
        (continuous_const.mul continuous_id).tendsto 0
      rw [mul_zero] at h1
      exact h1.mono_left nhdsWithin_le_nhds
    refine tendsto_of_tendsto_of_tendsto_of_le_of_le' tendsto_const_nhds hup ?_ ?_
    · apply Filter.Eventually.of_forall
      intro t
      exact le_trans (abs_nonneg _)
        (Finset.le_sup'
          (fun i => |N_t N_0 r t i - N_0 * Real.exp (r * ((i : ℝ) * t))|)
          (Finset.mem_range.mpr (num_steps_pos T t)))
    · have hδ : (0:ℝ) < 1 / (|r| + 1) := by positivity
      apply Filter.eventually_of_mem (Ioo_mem_nhdsWithin_Ioi' hδ)
      intro t ht
      obtain ⟨ht0, htδ⟩ := ht
      have hrt : |r| * t ≤ 1 := by
        have h2 : |r| * t ≤ |r| * (1 / (|r| + 1)) :=
          mul_le_mul_of_nonneg_left htδ.le (abs_nonneg r)
        have h3 : |r| * (1 / (|r| + 1)) ≤ 1 := by
          rw [mul_one_div, div_le_one (by positivity)]
          linarith [abs_nonneg r]
        linarith
      apply Finset.sup'_le
      intro i hi
      exact euler_error_bound N_0 r t T ht0 hT hrt i (Finset.mem_range.mp hi)
  · intro delta_t hdt hrdt i hi
    exact euler_error_bound N_0 r delta_t T hdt hT hrdt i hi

/-- Witness for C10 at `N_0 = 1`, `r = 1`, `T = 1`. -/
theorem euler_convergence_witness :
    Filter.Tendsto
        (fun delta_t =>
          (Finset.range (num_steps (1:ℝ) delta_t)).sup'
            (by simp [Finset.nonempty_range_iff, num_steps])
            (fun i => |N_t (1:ℝ) 1 delta_t i - 1 * Real.exp (1 * ((i : ℝ) * delta_t))|))
        (nhdsWithin 0 (Set.Ioi (0:ℝ))) (nhds 0) ∧
      ∀ delta_t, 0 < delta_t → |(1:ℝ)| * delta_t ≤ 1 →
        ∀ i, i < num_steps (1:ℝ) delta_t →
          |N_t (1:ℝ) 1 delta_t i - 1 * Real.exp (1 * ((i : ℝ) * delta_t))| ≤
            |(1:ℝ)| * 1 ^ 2 * Real.exp (|(1:ℝ)| * 1) * 1 * delta_t :=
  euler_convergence 1 1 1 (by norm_num)
